import Mathlib

/-!
A verification development for the custom neural-network layer library of the
snake-fungal-disease repository (`src/deepdna/nn/layers.py` and
`src/deepdna/nn/tools/attention_attribution.py`).

Tensors are modelled as (nested) Lists over exact numbers: integer token
tensors as `List ℤ` rows, float tensors as `List ℚ` (exact rationals standing
for the values the float code computes).  Randomly drawn quantities (offsets,
sampled lengths) are universally quantified parameters constrained to the
sampling ranges used by the code.
-/

section Spec2Proof

/- Batteries marks the arithmetic on `Rat` `@[irreducible]`; re-enable unfolding
so that concrete instances of the embedded definitions evaluate by `decide`. -/
attribute [local semireducible] Rat.mul Rat.add Rat.sub Rat.inv

/-! ## ContiguousMask (layers.py lines 72-108)

`call` computes `mask_len = tf.cast(tf.cast(seq_len, float32) * mask_ratio, int32)`
(a float-to-int cast, which truncates toward zero, i.e. floor for nonnegative
values), draws `mask_offsets` uniformly from `[0, seq_len - mask_len + 1)`,
builds `left = sequence_mask(offset, L)` (positions `< offset`),
`right = ¬ sequence_mask(offset + mask_len, L)` (positions `≥ offset + mask_len`),
and multiplies the input by the 0/1 mask `left ∨ right`.
Each row of the batch is processed independently; the model below is one row. -/

/-- `mask_len` of the layer: the float-to-int32 cast of `ratio * L` truncates
toward zero, which for this nonnegative product is the floor. -/
def ContiguousMask.maskLen (ratio : ℚ) (L : Nat) : Nat :=
  ((ratio * (L : ℚ)).floor).toNat

theorem rat_floor_eq_int_floor (q : ℚ) : q.floor = Int.floor q := by
  rw [Rat.floor_def', Rat.floor_def]

/-- Elementwise multiply by the boolean keep-mask `p < offset ∨ offset + ml ≤ p`
(cast to the integer dtype), walking the row with its position `p`. -/
def ContiguousMask.maskRow (offset ml : Nat) : Nat → List ℤ → List ℤ
  | _, [] => []
  | p, x :: xs =>
    (if p < offset ∨ offset + ml ≤ p then x else 0) :: ContiguousMask.maskRow offset ml (p + 1) xs

/-- One row of `ContiguousMask.call`; the sampled `offset` is a parameter. -/
def ContiguousMask.call (ratio : ℚ) (offset : Nat) (row : List ℤ) : List ℤ :=
  ContiguousMask.maskRow offset (ContiguousMask.maskLen ratio row.length) 0 row

theorem ContiguousMask.maskRow_length (offset ml : Nat) :
    ∀ (xs : List ℤ) (start : Nat), (ContiguousMask.maskRow offset ml start xs).length = xs.length := by
  intro xs
  induction xs with
  | nil => intro start; rfl
  | cons x xs ih => intro start; simp [ContiguousMask.maskRow, ih]

theorem ContiguousMask.maskRow_getD (offset ml : Nat) :
    ∀ (xs : List ℤ) (start p : Nat) (d : ℤ), p < xs.length →
      (ContiguousMask.maskRow offset ml start xs).getD p d
        = if start + p < offset ∨ offset + ml ≤ start + p then xs.getD p d else 0 := by
  intro xs
  induction xs with
  | nil => intro start p d h; cases h
  | cons x xs ih =>
    intro start p d h
    cases p with
    | zero => simp [ContiguousMask.maskRow]
    | succ p =>
      have hp : p < xs.length := by simpa using Nat.lt_of_succ_lt_succ h
      simp only [ContiguousMask.maskRow, List.getD_cons_succ]
      rw [ih (start + 1) p d hp]
      have : start + 1 + p = start + (p + 1) := by omega
      rw [this]

/-! ## InvertMask (layers.py lines 197-212) -/

/-- `InvertMask.compute_mask`: `None` passes through, otherwise elementwise
logical not. -/
def InvertMask.compute_mask (mask : Option (List Bool)) : Option (List Bool) :=
  match mask with
  | none => none
  | some m => some (m.map not)

/-- `InvertMask.call` returns `inputs + 0` (an arithmetic no-op used to keep the
layer from being elided). -/
def InvertMask.call (inputs : List ℤ) : List ℤ :=
  inputs.map (· + 0)

/-! ### Generic helpers -/

/-- First index of `v` in `l` (the length of `l` if absent), mirroring Python's
first-appearance id assignment and `np.argmax` tie-breaking. -/
def idxOf {α : Type} [DecidableEq α] : List α → α → Nat
  | [], _ => 0
  | x :: xs, v => if x = v then 0 else idxOf xs v + 1

theorem idxOf_lt_length {α : Type} [DecidableEq α] {l : List α} {v : α}
    (h : v ∈ l) : idxOf l v < l.length := by
  induction l with
  | nil => cases h
  | cons x xs ih =>
    by_cases hx : x = v
    · simp [idxOf, hx]
    · have hv : v ∈ xs := by
        cases h with
        | head => exact absurd rfl hx
        | tail _ h => exact h
      simp only [idxOf, if_neg hx, List.length_cons]
      exact Nat.succ_lt_succ (ih hv)

theorem idxOf_append_of_mem {α : Type} [DecidableEq α] {l : List α} (l' : List α) {v : α}
    (h : v ∈ l) : idxOf (l ++ l') v = idxOf l v := by
  induction l with
  | nil => cases h
  | cons x xs ih =>
    by_cases hx : x = v
    · simp [idxOf, hx]
    · have hv : v ∈ xs := by
        cases h with
        | head => exact absurd rfl hx
        | tail _ h => exact h
      simp [idxOf, hx, ih hv]

theorem idxOf_append_singleton_self {α : Type} [DecidableEq α] {l : List α} {v : α}
    (h : v ∉ l) : idxOf (l ++ [v]) v = l.length := by
  induction l with
  | nil => simp [idxOf]
  | cons x xs ih =>
    have hx : x ≠ v := fun he => h (he ▸ List.mem_cons_self x xs)
    have hv : v ∉ xs := fun hm => h (List.mem_cons_of_mem _ hm)
    simp [idxOf, hx, ih hv]

/-- Counting the positions of `range n` lying in `[a, b)`. -/
theorem length_filter_range_band (a b : Nat) :
    ∀ n, ((List.range n).filter (fun p => decide (a ≤ p) && decide (p < b))).length
      = min b n - min a n := by
  intro n
  induction n with
  | zero => simp
  | succ n ih =>
    rw [List.range_succ, List.filter_append, List.length_append, ih]
    by_cases h1 : a ≤ n <;> by_cases h2 : n < b <;> simp [h1, h2] <;> omega

/-! ### Theorems for claim C3 (ContiguousMask) -/

theorem ContiguousMask.maskLen_le (ratio : ℚ) (L : Nat) (h1 : ratio < 1) :
    ContiguousMask.maskLen ratio L ≤ L := by
  unfold ContiguousMask.maskLen
  rw [rat_floor_eq_int_floor]
  have hprod : ratio * (L : ℚ) ≤ (L : ℚ) := by
    calc ratio * (L : ℚ) ≤ 1 * (L : ℚ) := by
          apply mul_le_mul_of_nonneg_right (le_of_lt h1)
          exact_mod_cast Nat.zero_le L
      _ = (L : ℚ) := one_mul _
  have hle : Int.floor (ratio * (L : ℚ)) ≤ (L : ℤ) := by
    have := Int.floor_mono hprod
    rwa [Int.floor_natCast] at this
  omega

/-- C3 (amended): for `mask_ratio ∈ (0,1)` and any offset in the sampled range
`[0, L - mask_len + 1)`, `ContiguousMask` zeroes exactly
`⌊mask_ratio * L⌋` (truncated, not ceiled) contiguous positions, the span stays
inside `[0, L)`, and every position outside the span keeps its value. -/
theorem ContiguousMask.call_spec (ratio : ℚ) (offset : Nat) (row : List ℤ)
    (h0 : 0 < ratio) (h1 : ratio < 1)
    (hoff : offset < row.length - ContiguousMask.maskLen ratio row.length + 1) :
    (ContiguousMask.call ratio offset row).length = row.length ∧
    offset + ContiguousMask.maskLen ratio row.length ≤ row.length ∧
    (∀ p, offset ≤ p → p < offset + ContiguousMask.maskLen ratio row.length →
      (ContiguousMask.call ratio offset row).getD p 1 = 0) ∧
    (∀ p, p < row.length →
      (p < offset ∨ offset + ContiguousMask.maskLen ratio row.length ≤ p) →
      (ContiguousMask.call ratio offset row).getD p 1 = row.getD p 1) ∧
    ((List.range row.length).filter
        (fun p => decide (offset ≤ p) && decide (p < offset + ContiguousMask.maskLen ratio row.length))).length
      = ContiguousMask.maskLen ratio row.length := by
  have hml : ContiguousMask.maskLen ratio row.length ≤ row.length :=
    ContiguousMask.maskLen_le ratio row.length h1
  have hbound : offset + ContiguousMask.maskLen ratio row.length ≤ row.length := by omega
  refine ⟨ContiguousMask.maskRow_length _ _ _ _, hbound, ?_, ?_, ?_⟩
  · intro p hp1 hp2
    have hpL : p < row.length := by omega
    rw [ContiguousMask.call, ContiguousMask.maskRow_getD _ _ _ _ _ _ hpL]
    rw [if_neg]
    push_neg
    omega
  · intro p hpL hout
    rw [ContiguousMask.call, ContiguousMask.maskRow_getD _ _ _ _ _ _ hpL]
    rw [if_pos (by omega)]
  · rw [length_filter_range_band]
    omega

/-- Witness for `ContiguousMask.call_spec` at `ratio = 1/4`, `offset = 2`,
a row of length 10 (mask length `⌊10/4⌋ = 2`). -/
theorem ContiguousMask.call_spec_witness :
    (0 < (1/4 : ℚ) ∧ (1/4 : ℚ) < 1 ∧
      2 < ([5,6,7,8,9,10,11,12,13,14] : List ℤ).length
          - ContiguousMask.maskLen (1/4) ([5,6,7,8,9,10,11,12,13,14] : List ℤ).length + 1) ∧
    (ContiguousMask.call (1/4) 2 [5,6,7,8,9,10,11,12,13,14]).length
      = ([5,6,7,8,9,10,11,12,13,14] : List ℤ).length := by
  refine ⟨⟨by norm_num, by norm_num, by decide⟩, ?_⟩
  exact (ContiguousMask.call_spec (1/4) 2 [5,6,7,8,9,10,11,12,13,14]
    (by norm_num) (by norm_num) (by decide)).1

/-- C3 counterexample: with `mask_ratio = 1/4` and `L = 10` the layer zeroes
`⌊2.5⌋ = 2` positions, not `⌈2.5⌉ = 3` as the claim states. -/
theorem ContiguousMask.not_ceil_counterexample :
    (ContiguousMask.call (1/4) 0 (List.replicate 10 1)).count 0 = 2 ∧
    (((1/4 : ℚ) * (10 : ℚ)).ceil).toNat = 3 ∧
    ¬ ((ContiguousMask.call (1/4) 0 (List.replicate 10 1)).count 0
        = (((1/4 : ℚ) * (10 : ℚ)).ceil).toNat) := by
  exact ⟨by decide, by decide, by decide⟩

/-! ### Theorem for claim C6 (InvertMask) -/

/-- C6: the output mask is the elementwise logical not of the input mask
(`None` stays `None`), and the value path is the exact identity. -/
theorem InvertMask.spec (M : List Bool) (x : List ℤ) :
    InvertMask.compute_mask (some M) = some (M.map not) ∧
    InvertMask.compute_mask none = none ∧
    InvertMask.call x = x := by
  refine ⟨rfl, rfl, ?_⟩
  simp [InvertMask.call]

/-! ## ChunkedEmbeddingLayer (layers.py lines 649-721)

`call` flattens all axes up to and including `axis` into one leading dimension
(`tf.reshape(inputs, [-1] ++ right)`), evaluates the wrapped sub-layer either in
one shot (`chunk_size = None`, or flattened length `≤ chunk_size`) or chunk by
chunk in `_batch_predict`, and reshapes back to the original leading shape.

Model: the flattened leading dimension is a `List`; the original leading axes
are a (possibly ragged) list of groups, so flattening is `List.join` and the
reshape back is splitting by the original group lengths (`unflatten`).  The
wrapped sub-layer is a deterministic, side-effect-free embedding layer applied
to each element of the flattened batch independently, i.e. `List.map g`
(time-distributed semantics, per the layer's docstring).  `stop_gradient` is the
identity on values and is omitted. -/

/-- The `tf.while_loop` of `_batch_predict`: while `i < len(inputs)`, append
`layer(inputs[i : i+chunk_size])` to `result` and advance `i` by `chunk_size`.
With `chunk_size = 0` the source loop would not terminate, so that case is
guarded to return `result` unchanged. -/
def ChunkedEmbeddingLayer.batchPredictLoop {α β : Type} (f : List α → List β) (c : Nat)
    (xs : List α) (i : Nat) (result : List β) : List β :=
  if h : 0 < c ∧ i < xs.length then
    ChunkedEmbeddingLayer.batchPredictLoop f c xs (i + c) (result ++ f ((xs.drop i).take c))
  else result
termination_by xs.length - i
decreasing_by omega

/-- `_batch_predict`: evaluate the first chunk outside the loop, then run the
while loop starting at `i = chunk_size`. -/
def ChunkedEmbeddingLayer.batch_predict {α β : Type} (f : List α → List β) (c : Nat)
    (xs : List α) : List β :=
  ChunkedEmbeddingLayer.batchPredictLoop f c xs c (f (xs.take c))

/-- The embedding computation of `call` on the flattened input: one shot when
`chunk_size` is `None` or the flattened length fits in one chunk (`tf.cond`),
otherwise `_batch_predict`. -/
def ChunkedEmbeddingLayer.compute {α β : Type} (f : List α → List β) (chunk : Option Nat)
    (xs : List α) : List β :=
  match chunk with
  | none => f xs
  | some c => if xs.length ≤ c then f xs else ChunkedEmbeddingLayer.batch_predict f c xs

/-- The reshape back to the original leading shape: split the result by the
original group lengths. -/
def unflatten {β : Type} : List Nat → List β → List (List β)
  | [], _ => []
  | n :: ns, ys => ys.take n :: unflatten ns (ys.drop n)

/-- `ChunkedEmbeddingLayer.call` for a per-element sub-layer `g`: flatten,
compute, reshape back. -/
def ChunkedEmbeddingLayer.call {α β : Type} (g : α → β) (chunk : Option Nat)
    (input : List (List α)) : List (List β) :=
  unflatten (input.map List.length) (ChunkedEmbeddingLayer.compute (List.map g) chunk input.flatten)

theorem ChunkedEmbeddingLayer.batchPredictLoop_map {α β : Type} (g : α → β) (c : Nat)
    (hc : 0 < c) (xs : List α) :
    ∀ (k i : Nat) (result : List β), xs.length - i ≤ k → result = (xs.take i).map g →
      ChunkedEmbeddingLayer.batchPredictLoop (List.map g) c xs i result = xs.map g := by
  intro k
  induction k with
  | zero =>
    intro i result hk hr
    rw [ChunkedEmbeddingLayer.batchPredictLoop, dif_neg (by omega)]
    rw [hr, List.take_of_length_le (by omega)]
  | succ k ih =>
    intro i result hk hr
    by_cases hi : i < xs.length
    · rw [ChunkedEmbeddingLayer.batchPredictLoop, dif_pos ⟨hc, hi⟩]
      apply ih (i + c) _ (by omega)
      rw [hr, ← List.map_append, ← List.take_add]
    · rw [ChunkedEmbeddingLayer.batchPredictLoop, dif_neg (by omega)]
      rw [hr, List.take_of_length_le (by omega)]

theorem ChunkedEmbeddingLayer.compute_map {α β : Type} (g : α → β) (chunk : Option Nat)
    (xs : List α) (hc : ∀ c, chunk = some c → 0 < c) :
    ChunkedEmbeddingLayer.compute (List.map g) chunk xs = xs.map g := by
  match chunk with
  | none => rfl
  | some c =>
    rw [ChunkedEmbeddingLayer.compute]
    by_cases hle : xs.length ≤ c
    · rw [if_pos hle]
    · rw [if_neg hle, ChunkedEmbeddingLayer.batch_predict]
      exact ChunkedEmbeddingLayer.batchPredictLoop_map g c (hc c rfl) xs xs.length c _
        (by omega) rfl

theorem unflatten_join_map {α β : Type} (g : α → β) (input : List (List α)) :
    unflatten (input.map List.length) ((input.flatten).map g) = input.map (List.map g) := by
  induction input with
  | nil => rfl
  | cons row rest ih =>
    simp only [List.map_cons, List.flatten_cons, unflatten, List.map_append]
    have hlen : row.length = (List.map g row).length := (List.length_map row g).symm
    rw [hlen, List.take_left, List.drop_left, ih]

/-- C1: for every deterministic per-element sub-layer, every grouping of the
leading axes and every chunk size (`None` or positive — `1`, dividing the
flattened length or not), the chunked evaluation equals the single-shot
(`chunk_size = None`) evaluation, which itself is the sub-layer mapped over the
whole flattened input and reshaped back. -/
theorem ChunkedEmbeddingLayer.call_equiv {α β : Type} (g : α → β) (chunk : Option Nat)
    (input : List (List α)) (hc : ∀ c, chunk = some c → 0 < c) :
    ChunkedEmbeddingLayer.call g chunk input = ChunkedEmbeddingLayer.call g none input ∧
    ChunkedEmbeddingLayer.call g none input = input.map (List.map g) := by
  constructor
  · unfold ChunkedEmbeddingLayer.call
    rw [ChunkedEmbeddingLayer.compute_map g chunk input.flatten hc]
    rfl
  · unfold ChunkedEmbeddingLayer.call
    rw [ChunkedEmbeddingLayer.compute]
    exact unflatten_join_map g input

/-- Witness for `ChunkedEmbeddingLayer.call_equiv`: chunk size 3 (which does not
divide the flattened length 5) on a ragged two-group input. -/
theorem ChunkedEmbeddingLayer.call_equiv_witness :
    (∀ c, (some 3 : Option Nat) = some c → 0 < c) ∧
    ChunkedEmbeddingLayer.call (fun n : Nat => n + 1) (some 3) [[1, 2], [3, 4, 5]]
      = ChunkedEmbeddingLayer.call (fun n : Nat => n + 1) none [[1, 2], [3, 4, 5]] := by
  have hc : ∀ c, (some 3 : Option Nat) = some c → 0 < c := by
    intro c h
    cases h
    omega
  exact ⟨hc, (ChunkedEmbeddingLayer.call_equiv (fun n : Nat => n + 1) (some 3)
    [[1, 2], [3, 4, 5]] hc).1⟩

/-! ## AttributableMultiHeadAttention (layers.py lines 289-337)

`_compute_attention` scales the query by `1/√key_dim`, applies the
`_dot_product_equation` einsum against the key, `_masked_softmax`, multiplies
the post-softmax scores by `tf.reshape(self._alpha, (1,-1,1,1))` (one scalar
per head, broadcast over batch/query/key axes), and combines with the value
via the `_combine_equation` einsum.  The base-class sub-computations (the two
einsums and the masked softmax) live outside this repository and are identical
in both the attributable layer and the standard Keras layer, so they are
function parameters applied identically by both models; the one differing line
— the alpha multiply — is modelled concretely.  Dropout is inactive outside
training and is the identity. -/

/-- Float tensors of rank 4; for score tensors the axes are
`[batch][heads][query][key]`. -/
abbrev Tensor4 : Type := List (List (List (List ℚ)))

/-- `tf.multiply(query, 1.0 / np.sqrt(float(key_dim)))`; the scalar
`invSqrtKeyDim` stands for the constant `1/√key_dim`, shared by both layers. -/
def scaleQuery (c : ℚ) (t : Tensor4) : Tensor4 :=
  t.map (List.map (List.map (List.map (fun x => c * x))))

/-- `tf.multiply(tf.reshape(self._alpha, (1, -1, 1, 1)), attention_scores)`:
the per-head scalars are zipped against the head axis (second axis) of the
score tensor and broadcast over the remaining axes. -/
def alphaMultiply (alpha : List ℚ) (scores : Tensor4) : Tensor4 :=
  scores.map fun batch =>
    List.zipWith (fun a head => head.map (List.map (fun x => a * x))) alpha batch

/-- `AttributableMultiHeadAttention._compute_attention`. -/
def AttributableMultiHeadAttention.compute_attention
    (dotp : Tensor4 → Tensor4 → Tensor4) (smax : Tensor4 → Tensor4)
    (combine : Tensor4 → Tensor4 → Tensor4) (alpha : List ℚ) (invSqrtKeyDim : ℚ)
    (query key value : Tensor4) : Tensor4 × Tensor4 :=
  let q := scaleQuery invSqrtKeyDim query
  let s := smax (dotp key q)
  let s2 := alphaMultiply alpha s
  (combine s2 value, s2)

/-- The Keras base `MultiHeadAttention._compute_attention` (standard scaled
dot-product attention).  Modelled from the spec's words — the base class lives
outside this repository; it is the attributable variant minus the alpha
multiply. -/
def MultiHeadAttention.compute_attention
    (dotp : Tensor4 → Tensor4 → Tensor4) (smax : Tensor4 → Tensor4)
    (combine : Tensor4 → Tensor4 → Tensor4) (invSqrtKeyDim : ℚ)
    (query key value : Tensor4) : Tensor4 × Tensor4 :=
  let q := scaleQuery invSqrtKeyDim query
  let s := smax (dotp key q)
  (combine s value, s)

/-- `self._alpha` right after construction: `tf.Variable([1.0]*num_heads)`;
`reset_attention_attribution_weights` assigns the same value. -/
def AttributableMultiHeadAttention.reset_attention_attribution_weights
    (numHeads : Nat) : List ℚ :=
  List.replicate numHeads 1

/-- `set_attention_attribution_weight(head, alpha)`:
`self._alpha.scatter_nd_update([[head]], [alpha])` writes one entry. -/
def AttributableMultiHeadAttention.set_attention_attribution_weight
    (alpha : List ℚ) (head : Nat) (a : ℚ) : List ℚ :=
  alpha.set head a

theorem zipWith_alpha_ones : ∀ (b : List (List (List ℚ))),
    List.zipWith (fun a head => head.map (List.map (fun x => a * x)))
      (List.replicate b.length 1) b = b := by
  intro b
  induction b with
  | nil => rfl
  | cons h t ih =>
    simp only [List.length_cons, List.replicate_succ, List.zipWith_cons_cons]
    rw [ih]
    congr 1
    simp

theorem alphaMultiply_ones (H : Nat) (s : Tensor4) (hH : ∀ b ∈ s, b.length = H) :
    alphaMultiply (List.replicate H 1) s = s := by
  unfold alphaMultiply
  induction s with
  | nil => rfl
  | cons b bs ih =>
    simp only [List.map_cons]
    congr 1
    · rw [← hH b (List.mem_cons_self b bs)]
      exact zipWith_alpha_ones b
    · exact ih fun x hx => hH x (List.mem_cons_of_mem b hx)

/-- C7: when alpha holds its default all-ones value (as after construction or
`reset_attention_attribution_weights`), the alpha multiplication is the
identity, so the attributable layer's attention output and returned score
tensor equal those of standard scaled dot-product multi-head attention on the
same query, key and value. -/
theorem AttributableMultiHeadAttention.alpha_ones_equiv
    (dotp : Tensor4 → Tensor4 → Tensor4) (smax : Tensor4 → Tensor4)
    (combine : Tensor4 → Tensor4 → Tensor4) (invd : ℚ) (query key value : Tensor4)
    (H : Nat) (alpha : List ℚ)
    (halpha : alpha = AttributableMultiHeadAttention.reset_attention_attribution_weights H)
    (hH : ∀ b ∈ smax (dotp key (scaleQuery invd query)), b.length = H) :
    AttributableMultiHeadAttention.compute_attention dotp smax combine alpha invd query key value
      = MultiHeadAttention.compute_attention dotp smax combine invd query key value := by
  subst halpha
  simp only [AttributableMultiHeadAttention.compute_attention,
    MultiHeadAttention.compute_attention,
    AttributableMultiHeadAttention.reset_attention_attribution_weights]
  rw [alphaMultiply_ones H _ hH]

/-- Witness for `AttributableMultiHeadAttention.alpha_ones_equiv`: two heads,
constant einsum stubs, identity softmax. -/
theorem AttributableMultiHeadAttention.alpha_ones_equiv_witness :
    (∀ b ∈ (fun t : Tensor4 => t)
        ((fun _ _ : Tensor4 => ([[[[(2:ℚ), 3]], [[4, 5]]]] : Tensor4)) ([] : Tensor4)
          (scaleQuery 1 ([] : Tensor4))), b.length = 2) ∧
    AttributableMultiHeadAttention.compute_attention
        (fun _ _ => [[[[(2:ℚ), 3]], [[4, 5]]]]) (fun t => t) (fun s _ => s)
        (AttributableMultiHeadAttention.reset_attention_attribution_weights 2) 1 [] [] []
      = MultiHeadAttention.compute_attention
        (fun _ _ => [[[[(2:ℚ), 3]], [[4, 5]]]]) (fun t => t) (fun s _ => s) 1 [] [] [] := by
  have hH : ∀ b ∈ (fun t : Tensor4 => t)
      ((fun _ _ : Tensor4 => ([[[[(2:ℚ), 3]], [[4, 5]]]] : Tensor4)) ([] : Tensor4)
        (scaleQuery 1 ([] : Tensor4))), b.length = 2 := by decide
  exact ⟨hH, AttributableMultiHeadAttention.alpha_ones_equiv _ _ _ 1 [] [] [] 2 _ rfl hH⟩

theorem list_getD_set_self {α : Type} (a d : α) :
    ∀ (l : List α) (i : Nat), i < l.length → (l.set i a).getD i d = a := by
  intro l
  induction l with
  | nil => intro i hi; cases hi
  | cons x xs ih =>
    intro i hi
    cases i with
    | zero => rfl
    | succ i =>
      simp only [List.set_cons_succ, List.getD_cons_succ]
      exact ih i (by simpa using Nat.lt_of_succ_lt_succ hi)

theorem list_getD_set_ne {α : Type} (a d : α) :
    ∀ (l : List α) (i j : Nat), j ≠ i → (l.set i a).getD j d = l.getD j d := by
  intro l
  induction l with
  | nil => intro i j _; rfl
  | cons x xs ih =>
    intro i j hij
    cases i with
    | zero =>
      cases j with
      | zero => exact absurd rfl hij
      | succ j => rfl
    | succ i =>
      cases j with
      | zero => rfl
      | succ j =>
        simp only [List.set_cons_succ, List.getD_cons_succ]
        exact ih i j (fun h => hij (by rw [h]))

theorem list_getD_replicate {α : Type} (x d : α) :
    ∀ (n i : Nat), i < n → (List.replicate n x).getD i d = x := by
  intro n
  induction n with
  | zero => intro i hi; cases hi
  | succ n ih =>
    intro i hi
    cases i with
    | zero => rfl
    | succ i =>
      simp only [List.replicate_succ, List.getD_cons_succ]
      exact ih i (Nat.lt_of_succ_lt_succ hi)

/-- C10: `set_attention_attribution_weight(head, a)` writes `a` at `head` and
leaves every other head's weight unchanged (and preserves the vector length);
`reset_attention_attribution_weights` yields 1 at every head regardless of
prior state. -/
theorem AttributableMultiHeadAttention.alpha_frame
    (alpha : List ℚ) (h : Nat) (a : ℚ) (n i : Nat)
    (hh : h < alpha.length) (hi : i < n) :
    (AttributableMultiHeadAttention.set_attention_attribution_weight alpha h a).getD h 0 = a ∧
    (∀ h2, h2 ≠ h →
      (AttributableMultiHeadAttention.set_attention_attribution_weight alpha h a).getD h2 0
        = alpha.getD h2 0) ∧
    (AttributableMultiHeadAttention.set_attention_attribution_weight alpha h a).length
      = alpha.length ∧
    (AttributableMultiHeadAttention.reset_attention_attribution_weights n).getD i 0 = 1 := by
  refine ⟨?_, ?_, ?_, ?_⟩
  · exact list_getD_set_self a 0 alpha h hh
  · intro h2 hne
    exact list_getD_set_ne a 0 alpha h h2 hne
  · exact List.length_set alpha h a
  · exact list_getD_replicate 1 0 n i hi

/-- Witness for `AttributableMultiHeadAttention.alpha_frame`: a four-head alpha
vector, head 2 set to 1/2, reset width 4. -/
theorem AttributableMultiHeadAttention.alpha_frame_witness :
    (2 < ([1, 1, 1, 1] : List ℚ).length ∧ 3 < 4) ∧
    (AttributableMultiHeadAttention.set_attention_attribution_weight [1, 1, 1, 1] 2 (1/2)).getD 2 0
      = (1/2 : ℚ) := by
  refine ⟨⟨by decide, by decide⟩, ?_⟩
  exact (AttributableMultiHeadAttention.alpha_frame [1, 1, 1, 1] 2 (1/2) 4 3
    (by decide) (by decide)).1

/-! ## TrimAndContiguousMask (layers.py lines 115-194)

`call` samples a trimmed length uniformly from `[min_len, max_len]`, a trim
offset, a mask length `ceil(U * length * mask_ratio)` and a mask offset, builds
the trim mask, and then executes

  `right = tf.logical_not(tf.sequence_mask(offsets + mask_offsets) + mask_lengths, self.max_len)`

whose parenthesis is misplaced: it adds the boolean tensor
`tf.sequence_mask(offsets + mask_offsets)` to the int32 tensor `mask_lengths`
(and passes `self.max_len` as `tf.logical_not`'s second argument).  TensorFlow
rejects the mixed-dtype addition with an exception, so the layer never returns.
The model mirrors the computation up to that line and returns the raised error;
each row is processed independently. -/

/-- `tf.sequence_mask(n, L)`: position `p < L` is `true` iff `p < n`. -/
def sequenceMask (n L : Nat) : List Bool :=
  (List.range L).map fun p => decide (p < n)

/-- Adding a boolean tensor to an integer tensor: TensorFlow has no implicit
dtype cast and raises `InvalidArgumentError`. -/
def tfAddBoolInt (b : List Bool) (n : Nat) : Except String (List Bool) :=
  Except.error "InvalidArgumentError: cannot add a bool tensor and an int32 tensor"

/-- One row of `TrimAndContiguousMask.call`.  The sampled quantities are
parameters: `length` the trimmed length drawn from `[min_len, max_len]`, and
`u_off`, `u_mlen`, `u_moff` the three `tf.random.uniform` draws in `[0, 1)`. -/
def TrimAndContiguousMask.call (min_len max_len : Nat) (mask_ratio : ℚ)
    (length : Nat) (u_off u_mlen u_moff : ℚ) (row : List ℤ) : Except String (List ℤ) :=
  let offsets := ((u_off * (((max_len - length : Nat) : ℚ) + 1)).floor).toNat
  let left := (sequenceMask offsets max_len).map not
  let right := sequenceMask (offsets + length) max_len
  let trim_mask := List.zipWith and left right
  let mask_lengths := ((u_mlen * (length : ℚ) * mask_ratio).ceil).toNat
  let max_mask_offsets := length - mask_lengths
  let mask_offsets := ((u_moff * ((max_mask_offsets : ℚ) + 1)).floor).toNat
  -- the misparenthesized line: `tf.sequence_mask(offsets + mask_offsets)`
  -- (maxlen defaulting to the maximum of its argument) plus the int tensor
  match tfAddBoolInt (sequenceMask (offsets + mask_offsets) (offsets + mask_offsets))
      mask_lengths with
  | Except.error e => Except.error e
  | Except.ok _ =>
    -- never reached: the continuation would finish the mask and add pad tokens
    Except.ok (trim_mask.zipWith (fun keep x => if keep then x else 1) row)

/-- C4 (code bug): for every configuration, every random draw and every input
row, `TrimAndContiguousMask.call` raises TensorFlow's mixed-dtype error at the
misparenthesized `tf.logical_not(tf.sequence_mask(offsets + mask_offsets) +
mask_lengths, self.max_len)` line instead of producing a masked/padded/kept
output. -/
theorem TrimAndContiguousMask.call_raises (min_len max_len : Nat) (mask_ratio : ℚ)
    (length : Nat) (u_off u_mlen u_moff : ℚ) (row : List ℤ) :
    TrimAndContiguousMask.call min_len max_len mask_ratio length u_off u_mlen u_moff row
      = Except.error "InvalidArgumentError: cannot add a bool tensor and an int32 tensor" := rfl

/-! ## Attention-attribution pipeline (attention_attribution.py lines 82-174)

`token_attribution` reads an attribution store.  A record `n` occupies the four
keys `n_x`, `n_metadata`, `n_attr_shape`, `n_attrs`; the store may also hold a
`length` key.  The model keeps a record as its decoded content: the token-name
sequence from the metadata and the attribution tensor of shape
`(layers, heads, tokens+1, tokens+1)` as exact rationals (the stored
`attr_shape` is the shape of that tensor, so it is derived rather than stored
twice).  Token names are `String`s; the class-token sentinel id is `-1`. -/

structure AttrRecord where
  token_names : List String
  attrs : List (List (List (List ℚ)))
deriving DecidableEq

structure AttrStore where
  records : List AttrRecord
  lengthKey : Option Nat
deriving DecidableEq

/-- `len(store)`: four keys per record plus the `length` key when present. -/
def storeNumKeys (s : AttrStore) : Nat :=
  4 * s.records.length + (if s.lengthKey.isSome then 1 else 0)

/-- `length = store["length"] if "length" in store else len(store) // 4`. -/
def storeLength (s : AttrStore) : Nat :=
  match s.lengthKey with
  | some n => n
  | none => storeNumKeys s / 4

/-- The records the pipeline iterates over: indices `0 .. length-1`. -/
def procRecords (s : AttrStore) : List AttrRecord :=
  s.records.take (storeLength s)

/-- The `token_ids` assignment loop: walk the records in order, give each
unseen token name the next id.  The result lists the distinct names in
first-appearance order; a name's id is its index. -/
def insertNames (acc : List String) (names : List String) : List String :=
  names.foldl (fun a nm => if nm ∈ a then a else a ++ [nm]) acc

def collectTokenNames (recs : List AttrRecord) : List String :=
  recs.foldl (fun acc r => insertNames acc r.token_names) []

def nameId (ids : List String) (nm : String) : Nat :=
  idxOf ids nm

/-- Elementwise matrix sum (`np.sum` over the heads axis is a fold of these). -/
def matAdd (a b : List (List ℚ)) : List (List ℚ) :=
  List.zipWith (List.zipWith (· + ·)) a b

/-- `np.sum(attrs, axis=1)` for one layer: sum the per-head matrices. -/
def sumMats : List (List (List ℚ)) → List (List ℚ)
  | [] => []
  | m :: ms => ms.foldl matAdd m

/-- `[1:, 1:]`: strip the class-token row and column. -/
def stripCls (m : List (List ℚ)) : List (List ℚ) :=
  (m.drop 1).map (List.drop 1)

/-- `attrs_by_layer = np.sum(attrs, axis=1)[:, 1:, 1:]`. -/
def attrsByLayer (r : AttrRecord) : List (List (List ℚ)) :=
  r.attrs.map fun layer => stripCls (sumMats layer)

/-- `_compute_token_attributions`: `attr_all[i] = Σ_l Σ_{j ≠ i} abl[l][i][j]`,
with `num_tokens = attrs_by_layer.shape[-1]`. -/
def computeTokenAttributions (abl : List (List (List ℚ))) : List ℚ :=
  let T := ((abl.headD []).headD []).length
  (List.range T).map fun i =>
    (abl.map fun l =>
      ((List.range T).map fun j => if j = i then 0 else (l.getD i []).getD j 0).sum).sum

/-- `np.max` of a list (records under consideration are nonempty). -/
def listMax (l : List ℚ) : ℚ :=
  l.foldl max (l.headD 0)

/-- `np.max` of a matrix. -/
def matMax (m : List (List ℚ)) : ℚ :=
  listMax m.flatten

/-- The number of layers, read from `store["0_attr_shape"][0]`. -/
def numLayers0 (s : AttrStore) : Nat :=
  ((s.records.headD { token_names := [], attrs := [] }).attrs).length

/-- `taus = [tau]*(shape0 - 1) + [0.0]`: the final layer's threshold is forced
to 0. -/
def tausOf (s : AttrStore) (tau : ℚ) : List ℚ :=
  List.replicate (numLayers0 s - 1) tau ++ [0]

/-- The float comparison `a / m > tau` as `np.argwhere` sees it, on exact
rationals.  When `m = 0` (an all-`≤ 0` layer, since entries never exceed the
layer maximum) IEEE arithmetic yields `0/0 = NaN` and `x/0 = -inf` for `x < 0`,
both of which compare false against every `tau`, while `x/0 = +inf` for `x > 0`
compares true; the branch reproduces exactly those outcomes. -/
def ratioGtTau (a m tau : ℚ) : Bool :=
  if m = 0 then decide (0 < a) else decide (a / m > tau)

/-- One layer's thresholding for one record
(`np.argwhere(a_ij / max_attr_l > tau)` in row-major order), mapped to
universal token ids. -/
def recordLayerEdges (allNames names : List String) (tauL : ℚ)
    (a : List (List ℚ)) : List (Nat × Nat) :=
  (List.range a.length).bind fun i =>
    (List.range ((a.getD i []).length)).filterMap fun j =>
      if ratioGtTau ((a.getD i []).getD j 0) (matMax a) tauL then
        some (nameId allNames (names.getD i ""), nameId allNames (names.getD j ""))
      else none

/-- `edges.add(...)` over a Python set, modelled as append-if-absent in
insertion order. -/
def addEdges (es new : List (Nat × Nat)) : List (Nat × Nat) :=
  new.foldl (fun acc e => if e ∈ acc then acc else acc ++ [e]) es

/-- `for l, (tau, edges) in enumerate(zip(taus, edges_by_layer)):` accumulate
one record's candidate edges into each layer's set (`attrs_by_layer[l]` is the
head of `abl` after `l` drops). -/
def updateEdgesByLayer (allNames names : List String) :
    List ℚ → List (List (List ℚ)) → List (List (Nat × Nat)) → List (List (Nat × Nat))
  | [], _, ebl => ebl
  | _ :: _, _, [] => []
  | tl :: taus, abl, es :: ebl =>
      addEdges es (recordLayerEdges allNames names tl (abl.headD []))
        :: updateEdgesByLayer allNames names taus (abl.drop 1) ebl

/-- `edges_by_layer` after the whole record loop. -/
def edgesByLayer (s : AttrStore) (tau : ℚ) : List (List (Nat × Nat)) :=
  let allNames := collectTokenNames (procRecords s)
  let taus := tausOf s tau
  (procRecords s).foldl
    (fun ebl r => updateEdgesByLayer allNames r.token_names taus (attrsByLayer r) ebl)
    (List.replicate taus.length [])

/-- The running `(top_node, top_node_value)` update of the record loop:
`np.argmax` takes the first maximal index; the initial value is `-inf`, so the
first record always wins. -/
def topUpdate (allNames : List String) (acc : Option (Nat × ℚ)) (r : AttrRecord) :
    Option (Nat × ℚ) :=
  let ta := computeTokenAttributions (attrsByLayer r)
  let mv := listMax ta
  match acc with
  | none => some (nameId allNames (r.token_names.getD (idxOf ta mv) ""), mv)
  | some (t, v) =>
    if mv > v then some (nameId allNames (r.token_names.getD (idxOf ta mv) ""), mv)
    else some (t, v)

def topNodeFold (allNames : List String) (recs : List AttrRecord) : Option (Nat × ℚ) :=
  recs.foldl (topUpdate allNames) none

/-- `token_total_attrs` (a float defaultdict over universal ids, here a vector
indexed by id). -/
def tokenTotals (allNames : List String) (recs : List AttrRecord) : List ℚ :=
  recs.foldl
    (fun tot r =>
      let ta := computeTokenAttributions (attrsByLayer r)
      (List.range ta.length).foldl
        (fun tot2 i =>
          let id := nameId allNames (r.token_names.getD i "")
          tot2.set id (tot2.getD id 0 + ta.getD i 0))
        tot)
    (List.replicate allNames.length 0)

/-- The `{NotAppear, Appear, Fixed}` vertex states of the tree walk. -/
inductive VState where
  | NotAppear
  | Appear
  | Fixed
deriving DecidableEq

/-- The mutable state of the tree walk: the per-id state dict, and the `edges`
and `vertices` sets (kept in insertion order; every insertion below is fresh,
so append is set insertion). -/
structure WalkState where
  state : Nat → VState
  edges : List (ℤ × ℤ)
  vertices : List ℤ

/-- One candidate edge `(i, j)` of the walk: skip self-edges, then the two
sequential conditionals of the source.  When the first fires it sets
`state[i] = Fixed` and `state[j] = Appear`, so the second conditional
(`state[i] is Fixed and state[j] is NotAppear`) cannot also fire on the updated
state; the two sequential `if`s are therefore an `if`/`elif`. -/
def walkStep (ws : WalkState) (e : Nat × Nat) : WalkState :=
  if e.1 = e.2 then ws
  else if ws.state e.1 = VState.Appear ∧ ws.state e.2 = VState.NotAppear then
    { state := fun k =>
        if k = e.1 then VState.Fixed else if k = e.2 then VState.Appear else ws.state k,
      edges := ws.edges ++ [((e.1 : ℤ), (e.2 : ℤ))],
      vertices := ws.vertices ++ [(e.2 : ℤ)] }
  else if ws.state e.1 = VState.Fixed ∧ ws.state e.2 = VState.NotAppear then
    { state := fun k => if k = e.2 then VState.Appear else ws.state k,
      edges := ws.edges ++ [((e.1 : ℤ), (e.2 : ℤ))],
      vertices := ws.vertices ++ [(e.2 : ℤ)] }
  else ws

def processLayer (ws : WalkState) (es : List (Nat × Nat)) : WalkState :=
  es.foldl walkStep ws

/-- The layer loop `for l in range(len(taus) - 2, -1, -1)`: `walkLoop ebl k`
processes layer indices `k-1, k-2, …, 0`; the source calls it with
`k = len(taus) - 1`, so the final layer (index `len(taus) - 1`) is skipped. -/
def walkLoop (ebl : List (List (Nat × Nat))) : Nat → WalkState → WalkState
  | 0, ws => ws
  | k + 1, ws => walkLoop ebl k (processLayer ws (ebl.getD k []))

def walkOverLayers (ebl : List (List (Nat × Nat))) (ws : WalkState) : WalkState :=
  walkLoop ebl (ebl.length - 1) ws

/-- `state = {id: NotAppear for id in token_ids.values()}; state[top] = Appear;
edges = set(); vertices = {top}`. -/
def initWalkState (top : Nat) : WalkState :=
  { state := fun k => if k = top then VState.Appear else VState.NotAppear,
    edges := [],
    vertices := [(top : ℤ)] }

/-- The class-token injection: add vertex `-1`, and for
`j in range(len(state)-1, -1, -1)` with `state[j]` in `{Appear, Fixed}`, add
the edge `(-1, j)`. -/
def injectClassToken (N : Nat) (ws : WalkState) : WalkState :=
  let js := ((List.range N).reverse).filter
    (fun j => decide (ws.state j = VState.Appear ∨ ws.state j = VState.Fixed))
  { ws with
    vertices := ws.vertices ++ [(-1 : ℤ)],
    edges := ws.edges ++ js.map fun j : Nat => ((-1 : ℤ), (j : ℤ)) }

structure AttributionResult where
  token_id_map : List (ℤ × String)
  token_attrs : List ℚ
  edges : List (ℤ × ℤ)
  vertices : List ℤ
deriving DecidableEq

/-- `token_attribution(attribution_path, tau)`: `none` models the
`assert top_node is not None` failure. -/
def token_attribution (s : AttrStore) (tau : ℚ) : Option AttributionResult :=
  let recs := procRecords s
  let allNames := collectTokenNames recs
  (topNodeFold allNames recs).map fun top =>
    let ws := injectClassToken allNames.length
      (walkOverLayers (edgesByLayer s tau) (initWalkState top.1))
    { token_id_map :=
        ((List.range allNames.length).map fun i => ((Int.ofNat i), allNames.getD i ""))
          ++ [(-1, "[CLS]")],
      token_attrs := tokenTotals allNames recs,
      edges := ws.edges,
      vertices := ws.vertices }

/-! ### Theorem for claim C9 (missing `length` key) -/

/-- C9: if the store has no `length` key, the record count falls back to
`len(store) // 4` — exactly the number of stored records, every one of which is
processed. -/
theorem storeLength_fallback (s : AttrStore) (h : s.lengthKey = none) :
    storeLength s = s.records.length ∧ procRecords s = s.records := by
  have h1 : storeLength s = s.records.length := by
    simp only [storeLength, h, storeNumKeys, Option.isSome_none, if_neg Bool.false_ne_true,
      Nat.add_zero]
    omega
  refine ⟨h1, ?_⟩
  rw [procRecords, h1, List.take_length]

def fallbackStore : AttrStore :=
  { records := [{ token_names := ["a"], attrs := [] }, { token_names := ["b"], attrs := [] }],
    lengthKey := none }

/-- Witness for `storeLength_fallback` on a two-record store without a
`length` key. -/
theorem storeLength_fallback_witness :
    fallbackStore.lengthKey = none ∧ storeLength fallbackStore = fallbackStore.records.length :=
  ⟨rfl, (storeLength_fallback fallbackStore rfl).1⟩

/-! ### Theorem for claim C8 (all-zero layer thresholding) -/

theorem foldl_max_init_le (l : List ℚ) : ∀ a : ℚ, a ≤ l.foldl max a := by
  induction l with
  | nil => intro a; exact le_refl a
  | cons y t ih =>
    intro a
    calc a ≤ max a y := le_max_left a y
      _ ≤ t.foldl max (max a y) := ih (max a y)

theorem mem_le_foldl_max (l : List ℚ) : ∀ (a x : ℚ), x ∈ l → x ≤ l.foldl max a := by
  induction l with
  | nil => intro a x hx; cases hx
  | cons y t ih =>
    intro a x hx
    rcases List.mem_cons.mp hx with hxy | hxt
    · subst hxy
      show x ≤ t.foldl max (max a x)
      calc x ≤ max a x := le_max_right a x
        _ ≤ t.foldl max (max a x) := foldl_max_init_le t (max a x)
    · show x ≤ t.foldl max (max a y)
      exact ih (max a y) x hxt

theorem le_matMax {a : List (List ℚ)} {row : List ℚ} {x : ℚ}
    (hrow : row ∈ a) (hx : x ∈ row) : x ≤ matMax a := by
  have hflat : x ∈ a.flatten := List.mem_flatten.mpr ⟨row, hrow, hx⟩
  exact mem_le_foldl_max a.flatten (a.flatten.headD 0) x hflat

theorem filterMap_eq_nil_of_forall {α β : Type} (l : List α) (g : α → Option β)
    (h : ∀ x ∈ l, g x = none) : l.filterMap g = [] := by
  induction l with
  | nil => rfl
  | cons y t ih =>
    rw [List.filterMap_cons, h y (List.mem_cons_self y t)]
    exact ih fun x hx => h x (List.mem_cons_of_mem y hx)

theorem bind_eq_nil_of_forall {α β : Type} (l : List α) (f : α → List β)
    (h : ∀ x ∈ l, f x = []) : l.bind f = [] := by
  induction l with
  | nil => rfl
  | cons y t ih =>
    have hc : (y :: t).bind f = f y ++ t.bind f := List.cons_bind y t f
    rw [hc, h y (List.mem_cons_self y t), List.nil_append]
    exact ih fun x hx => h x (List.mem_cons_of_mem y hx)

/-- C8: a layer whose head-summed, class-stripped attribution matrix has
maximum 0 contributes no candidate edges for any threshold: every entry is
`≤ 0`, the float ratios degenerate to NaN (`0/0`) or `-inf` (`x/0`, `x < 0`),
no comparison against `tau` succeeds, and the accumulated edge set — all that
the tree walk ever sees — is unchanged. -/
theorem recordLayerEdges_zero_max (allNames names : List String) (tauL : ℚ)
    (a : List (List ℚ)) (hmax : matMax a = 0) :
    recordLayerEdges allNames names tauL a = [] ∧
    ∀ es, addEdges es (recordLayerEdges allNames names tauL a) = es := by
  have hnil : recordLayerEdges allNames names tauL a = [] := by
    unfold recordLayerEdges
    apply bind_eq_nil_of_forall
    intro i hi
    apply filterMap_eq_nil_of_forall
    intro j hj
    have hiL : i < a.length := List.mem_range.mp hi
    have hjL : j < (a.getD i []).length := List.mem_range.mp hj
    have hrowmem : a.getD i [] ∈ a := by
      rw [List.getD_eq_getElem a [] hiL]
      exact List.getElem_mem hiL
    have hentry : (a.getD i []).getD j 0 ∈ a.getD i [] := by
      rw [List.getD_eq_getElem (a.getD i []) 0 hjL]
      exact List.getElem_mem hjL
    have hle : (a.getD i []).getD j 0 ≤ 0 := by
      have hb := le_matMax hrowmem hentry
      rwa [hmax] at hb
    rw [hmax, ratioGtTau, if_pos rfl]
    simp only [ite_eq_right_iff]
    intro hpos
    exact absurd (of_decide_eq_true hpos) (not_lt.mpr hle)
  refine ⟨hnil, fun es => ?_⟩
  rw [hnil]
  rfl

/-- Witness for `recordLayerEdges_zero_max` on a layer with entries 0 and `-3`
(maximum 0). -/
theorem recordLayerEdges_zero_max_witness :
    matMax [[0, 0], [0, -3]] = 0 ∧
    recordLayerEdges ["a", "b"] ["a", "b"] (2/5) [[0, 0], [0, -3]] = [] :=
  ⟨by decide, (recordLayerEdges_zero_max ["a", "b"] ["a", "b"] (2/5) [[0, 0], [0, -3]]
    (by decide)).1⟩

/-! ### The tree-walk invariant (claims C2 and C5)

The walk only ever adds an edge `(i, j)` whose source has already appeared and
whose target is fresh (`NotAppear`), immediately promoting the target; the
invariant below records the consequences: vertices are marked token ids below
`N`, appear at most once, each edge's endpoints appear in insertion order, edge
targets are pairwise distinct, and a fresh id has no incoming edge. -/

structure WalkInv (N : Nat) (ws : WalkState) : Prop where
  verts_char : ∀ v ∈ ws.vertices,
    ∃ k : Nat, v = (k : ℤ) ∧ k < N ∧ ws.state k ≠ VState.NotAppear
  marked_mem : ∀ k : Nat, k < N → ws.state k ≠ VState.NotAppear → (k : ℤ) ∈ ws.vertices
  verts_nodup : ws.vertices.Nodup
  edges_wf : ∀ e ∈ ws.edges, ∃ a b : Nat, e = ((a : ℤ), (b : ℤ)) ∧ a < N ∧ b < N ∧ a ≠ b ∧
    (a : ℤ) ∈ ws.vertices ∧ (b : ℤ) ∈ ws.vertices ∧
    idxOf ws.vertices ((a : ℤ)) < idxOf ws.vertices ((b : ℤ))
  targets_nodup : (ws.edges.map Prod.snd).Nodup
  fresh_no_incoming : ∀ k : Nat, ws.state k = VState.NotAppear →
    ((k : ℤ)) ∉ ws.edges.map Prod.snd

theorem nodup_append_singleton {α : Type} {l : List α} {x : α}
    (hl : l.Nodup) (hx : x ∉ l) : (l ++ [x]).Nodup := by
  apply List.Nodup.append hl (List.nodup_singleton x)
  intro a ha hb
  rw [List.mem_singleton] at hb
  exact hx (hb ▸ ha)

theorem walkInv_init (N top : Nat) (htop : top < N) : WalkInv N (initWalkState top) := by
  refine ⟨?_, ?_, ?_, ?_, ?_, ?_⟩
  · intro v hv
    rw [initWalkState] at hv
    rw [List.mem_singleton] at hv
    refine ⟨top, hv, htop, ?_⟩
    rw [initWalkState]
    simp
  · intro k hk hstate
    rw [initWalkState] at hstate ⊢
    by_cases hkt : k = top
    · simp [hkt]
    · exact absurd (by simp [hkt]) hstate
  · exact List.nodup_singleton _
  · intro e he; cases he
  · exact List.nodup_nil
  · intro k _ h; cases h

theorem walkInv_extend (N : Nat) (ws : WalkState) (i j : Nat) (st2 : Nat → VState)
    (hiN : i < N) (hjN : j < N) (hij : i ≠ j)
    (hmarked_i : ws.state i ≠ VState.NotAppear)
    (hfresh_j : ws.state j = VState.NotAppear)
    (hst2_j : st2 j ≠ VState.NotAppear)
    (hst2_other : ∀ k, k ≠ j → (st2 k = VState.NotAppear ↔ ws.state k = VState.NotAppear))
    (hinv : WalkInv N ws) :
    WalkInv N { state := st2,
                edges := ws.edges ++ [((i : ℤ), (j : ℤ))],
                vertices := ws.vertices ++ [(j : ℤ)] } := by
  have hjV : ((j : ℤ)) ∉ ws.vertices := by
    intro hmem
    obtain ⟨k, hk, _, hkst⟩ := hinv.verts_char _ hmem
    have : k = j := by omega
    exact hkst (this ▸ hfresh_j)
  have hiV : ((i : ℤ)) ∈ ws.vertices := hinv.marked_mem i hiN hmarked_i
  refine ⟨?_, ?_, ?_, ?_, ?_, ?_⟩
  · intro v hv
    rcases List.mem_append.mp hv with hvl | hvr
    · obtain ⟨k, hkv, hkN, hkst⟩ := hinv.verts_char v hvl
      have hkj : k ≠ j := by
        intro hkj
        exact hkst (hkj ▸ hfresh_j)
      refine ⟨k, hkv, hkN, ?_⟩
      intro h2
      exact hkst ((hst2_other k hkj).mp h2)
    · rw [List.mem_singleton] at hvr
      exact ⟨j, hvr, hjN, hst2_j⟩
  · intro k hkN hkst
    by_cases hkj : k = j
    · subst hkj
      exact List.mem_append.mpr (Or.inr (List.mem_singleton.mpr rfl))
    · have : ws.state k ≠ VState.NotAppear := fun h => hkst ((hst2_other k hkj).mpr h)
      exact List.mem_append.mpr (Or.inl (hinv.marked_mem k hkN this))
  · exact nodup_append_singleton hinv.verts_nodup hjV
  · intro e he
    rcases List.mem_append.mp he with hel | her
    · obtain ⟨a, b, heab, haN, hbN, hab, haV, hbV, hidx⟩ := hinv.edges_wf e hel
      exact ⟨a, b, heab, haN, hbN, hab,
        List.mem_append.mpr (Or.inl haV), List.mem_append.mpr (Or.inl hbV),
        by rwa [idxOf_append_of_mem _ haV, idxOf_append_of_mem _ hbV]⟩
    · rw [List.mem_singleton] at her
      refine ⟨i, j, her, hiN, hjN, hij,
        List.mem_append.mpr (Or.inl hiV),
        List.mem_append.mpr (Or.inr (List.mem_singleton.mpr rfl)), ?_⟩
      rw [idxOf_append_of_mem _ hiV, idxOf_append_singleton_self hjV]
      exact idxOf_lt_length hiV
  · rw [List.map_append]
    apply nodup_append_singleton hinv.targets_nodup
    exact hinv.fresh_no_incoming j hfresh_j
  · intro k hkst
    have hkj : k ≠ j := by
      intro hkj
      exact hst2_j (hkj ▸ hkst)
    have hold : ws.state k = VState.NotAppear := (hst2_other k hkj).mp hkst
    rw [List.map_append]
    intro hmem
    rcases List.mem_append.mp hmem with hl | hr
    · exact hinv.fresh_no_incoming k hold hl
    · rw [List.map_singleton, List.mem_singleton] at hr
      have : k = j := by omega
      exact hkj this

theorem walkInv_step (N : Nat) (ws : WalkState) (e : Nat × Nat)
    (hinv : WalkInv N ws) (he1 : e.1 < N) (he2 : e.2 < N) :
    WalkInv N (walkStep ws e) := by
  rw [walkStep]
  by_cases hij : e.1 = e.2
  · rw [if_pos hij]; exact hinv
  rw [if_neg hij]
  by_cases hA : ws.state e.1 = VState.Appear ∧ ws.state e.2 = VState.NotAppear
  · rw [if_pos hA]
    apply walkInv_extend N ws e.1 e.2 _ he1 he2 hij _ hA.2 _ _ hinv
    · rw [hA.1]; intro h; cases h
    · rw [if_neg (Ne.symm hij), if_pos rfl]; intro h; cases h
    · intro k hkj
      by_cases hki : k = e.1
      · rw [if_pos hki]
        constructor
        · intro h; cases h
        · intro h
          rw [hki] at h
          rw [hA.1] at h
          cases h
      · rw [if_neg hki, if_neg hkj]
  · rw [if_neg hA]
    by_cases hB : ws.state e.1 = VState.Fixed ∧ ws.state e.2 = VState.NotAppear
    · rw [if_pos hB]
      apply walkInv_extend N ws e.1 e.2 _ he1 he2 hij _ hB.2 _ _ hinv
      · rw [hB.1]; intro h; cases h
      · rw [if_pos rfl]; intro h; cases h
      · intro k hkj
        rw [if_neg hkj]
    · rw [if_neg hB]; exact hinv

theorem walkInv_processLayer (N : Nat) :
    ∀ (es : List (Nat × Nat)) (ws : WalkState), WalkInv N ws →
      (∀ e ∈ es, e.1 < N ∧ e.2 < N) → WalkInv N (processLayer ws es) := by
  intro es
  induction es with
  | nil => intro ws hinv _; exact hinv
  | cons e t ih =>
    intro ws hinv hb
    have he := hb e (List.mem_cons_self e t)
    exact ih (walkStep ws e) (walkInv_step N ws e hinv he.1 he.2)
      fun x hx => hb x (List.mem_cons_of_mem e hx)

theorem walkInv_walkLoop (N : Nat) (ebl : List (List (Nat × Nat)))
    (hbound : ∀ es ∈ ebl, ∀ e ∈ es, e.1 < N ∧ e.2 < N) :
    ∀ (k : Nat) (ws : WalkState), WalkInv N ws → WalkInv N (walkLoop ebl k ws) := by
  have hget : ∀ k, ∀ e ∈ ebl.getD k [], e.1 < N ∧ e.2 < N := by
    intro k e he
    by_cases hk : k < ebl.length
    · rw [List.getD_eq_getElem ebl [] hk] at he
      exact hbound _ (List.getElem_mem hk) e he
    · rw [List.getD_eq_default ebl [] (by omega)] at he
      cases he
  intro k
  induction k with
  | zero => intro ws hinv; exact hinv
  | succ k ih =>
    intro ws hinv
    rw [walkLoop]
    exact ih _ (walkInv_processLayer N _ ws hinv (hget k))

theorem filter_eq_nil_of_forall_bool {α : Type} (p : α → Bool) :
    ∀ (l : List α), (∀ x ∈ l, p x = false) → l.filter p = [] := by
  intro l
  induction l with
  | nil => intro _; rfl
  | cons y t ih =>
    intro h
    rw [List.filter_cons, h y (List.mem_cons_self y t)]
    exact ih fun x hx => h x (List.mem_cons_of_mem y hx)

theorem length_filter_snd_le_one {v : ℤ} (q : ℤ × ℤ → Bool) :
    ∀ (l : List (ℤ × ℤ)), (l.map Prod.snd).Nodup →
      (l.filter fun e => decide (e.2 = v) && q e).length ≤ 1 := by
  intro l
  induction l with
  | nil => intro _; exact Nat.zero_le 1
  | cons e t ih =>
    intro h
    rw [List.map_cons, List.nodup_cons] at h
    rw [List.filter_cons]
    by_cases hp : (decide (e.2 = v) && q e) = true
    · rw [if_pos hp]
      have hev : e.2 = v := of_decide_eq_true (Bool.and_elim_left hp)
      have hnone : (t.filter fun x => decide (x.2 = v) && q x) = [] := by
        apply filter_eq_nil_of_forall_bool
        intro x hx
        have hxv : ¬ (x.2 = v) := by
          intro hxv
          apply h.1
          rw [← hev] at hxv
          rw [← hxv]
          exact List.mem_map_of_mem Prod.snd hx
        rw [decide_eq_false hxv, Bool.false_and]
      rw [hnone]
      exact le_refl 1
    · rw [if_neg hp]
      exact ih h.2

/-- The structural conclusions about `token_attribution`'s final vertex/edge
sets, proved from the walk invariant after the class-token injection. -/
theorem inject_structure (N : Nat) (ws : WalkState) (hinv : WalkInv N ws) :
    (injectClassToken N ws).vertices.Nodup ∧
    (injectClassToken N ws).edges.Nodup ∧
    (-1 : ℤ) ∈ (injectClassToken N ws).vertices ∧
    (∀ v ∈ (injectClassToken N ws).vertices, v ≠ -1 →
      ((-1 : ℤ), v) ∈ (injectClassToken N ws).edges) ∧
    (∀ e ∈ (injectClassToken N ws).edges,
      e.1 ∈ (injectClassToken N ws).vertices ∧
      e.2 ∈ (injectClassToken N ws).vertices ∧ e.2 ≠ -1) ∧
    (∀ v : ℤ, ((injectClassToken N ws).edges.filter
        fun e => decide (e.2 = v) && decide (e.1 ≠ -1)).length ≤ 1) ∧
    (∀ v : ℤ, ¬ Relation.TransGen (fun x y => (x, y) ∈ (injectClassToken N ws).edges) v v) := by
  rw [injectClassToken]
  set js := ((List.range N).reverse).filter
    (fun j => decide (ws.state j = VState.Appear ∨ ws.state j = VState.Fixed)) with hjs
  have hjs_mem : ∀ j ∈ js, j < N ∧ ws.state j ≠ VState.NotAppear := by
    intro j hj
    rw [hjs, List.mem_filter] at hj
    obtain ⟨hjr, hjp⟩ := hj
    rw [List.mem_reverse, List.mem_range] at hjr
    refine ⟨hjr, ?_⟩
    rcases of_decide_eq_true hjp with h | h <;> rw [h] <;> intro hc <;> cases hc
  have hjs_mem_of : ∀ j : Nat, j < N → ws.state j ≠ VState.NotAppear → j ∈ js := by
    intro j hjN hjst
    rw [hjs, List.mem_filter, List.mem_reverse, List.mem_range]
    refine ⟨hjN, decide_eq_true ?_⟩
    cases hst : ws.state j with
    | NotAppear => exact absurd hst hjst
    | Appear => exact Or.inl rfl
    | Fixed => exact Or.inr rfl
  have hjs_nodup : js.Nodup :=
    List.Nodup.filter _ (List.nodup_reverse.mpr (List.nodup_range N))
  have hnegV : (-1 : ℤ) ∉ ws.vertices := by
    intro hmem
    obtain ⟨k, hk, _, _⟩ := hinv.verts_char _ hmem
    omega
  have hinjE_mem : ∀ e ∈ js.map (fun j : Nat => ((-1 : ℤ), (j : ℤ))),
      ∃ j : Nat, e = ((-1 : ℤ), (j : ℤ)) ∧ j < N ∧ ws.state j ≠ VState.NotAppear := by
    intro e he
    obtain ⟨j, hj, hje⟩ := List.mem_map.mp he
    exact ⟨j, hje.symm, (hjs_mem j hj).1, (hjs_mem j hj).2⟩
  refine ⟨?_, ?_, ?_, ?_, ?_, ?_, ?_⟩
  · exact nodup_append_singleton hinv.verts_nodup hnegV
  · apply List.Nodup.append
    · exact List.Nodup.of_map Prod.snd hinv.targets_nodup
    · apply List.Nodup.map
      · intro a b hab
        have : (a : ℤ) = (b : ℤ) := congrArg Prod.snd hab
        omega
      · exact hjs_nodup
    · intro e hel her
      obtain ⟨a, b, heab, _, _, _, _, _, _⟩ := hinv.edges_wf e hel
      obtain ⟨j, hej, _, _⟩ := hinjE_mem e her
      rw [heab] at hej
      have : ((a : ℤ)) = -1 := congrArg Prod.fst hej
      omega
  · exact List.mem_append.mpr (Or.inr (List.mem_singleton.mpr rfl))
  · intro v hv hvne
    rcases List.mem_append.mp hv with hvl | hvr
    · obtain ⟨k, hkv, hkN, hkst⟩ := hinv.verts_char v hvl
      apply List.mem_append.mpr (Or.inr ?_)
      rw [hkv]
      exact List.mem_map_of_mem _ (hjs_mem_of k hkN hkst)
    · rw [List.mem_singleton] at hvr
      exact absurd hvr hvne
  · intro e he
    rcases List.mem_append.mp he with hel | her
    · obtain ⟨a, b, heab, _, _, _, haV, hbV, _⟩ := hinv.edges_wf e hel
      rw [heab]
      refine ⟨List.mem_append.mpr (Or.inl haV), List.mem_append.mpr (Or.inl hbV), by omega⟩
    · obtain ⟨j, hej, hjN, hjst⟩ := hinjE_mem e her
      rw [hej]
      refine ⟨List.mem_append.mpr (Or.inr (List.mem_singleton.mpr rfl)),
        List.mem_append.mpr (Or.inl (hinv.marked_mem j hjN hjst)), by omega⟩
  · intro v
    rw [List.filter_append]
    have hinj_nil : ((js.map fun j : Nat => ((-1 : ℤ), (j : ℤ))).filter
        fun e => decide (e.2 = v) && decide (e.1 ≠ -1)) = [] := by
      apply filter_eq_nil_of_forall_bool
      intro e he
      obtain ⟨j, hej, _, _⟩ := hinjE_mem e he
      rw [hej]
      simp
    rw [hinj_nil, List.append_nil]
    exact length_filter_snd_le_one _ ws.edges hinv.targets_nodup
  · intro v hcycle
    -- rank: the class token is below every token vertex, and walk edges point
    -- from earlier-appeared to later-appeared vertices
    have hrank : ∀ x y : ℤ,
        (x, y) ∈ ws.edges ++ js.map (fun j : Nat => ((-1 : ℤ), (j : ℤ))) →
        (if x = -1 then 0 else idxOf ws.vertices x + 1)
          < (if y = -1 then 0 else idxOf ws.vertices y + 1) := by
      intro x y hxy
      rcases List.mem_append.mp hxy with hel | her
      · obtain ⟨a, b, heab, _, _, _, _, _, hidx⟩ := hinv.edges_wf _ hel
        have hxa : x = (a : ℤ) := congrArg Prod.fst heab
        have hyb : y = (b : ℤ) := congrArg Prod.snd heab
        rw [hxa, hyb, if_neg (by omega), if_neg (by omega)]
        omega
      · obtain ⟨j, hej, _, _⟩ := hinjE_mem _ her
        have hx1 : x = -1 := congrArg Prod.fst hej
        have hyj : y = ((j : ℤ)) := congrArg Prod.snd hej
        rw [hx1, hyj, if_pos rfl, if_neg (by omega)]
        omega
    have hmono : ∀ x y : ℤ,
        Relation.TransGen (fun p q => (p, q) ∈ ws.edges ++ js.map (fun j : Nat => ((-1 : ℤ), (j : ℤ)))) x y →
        (if x = -1 then 0 else idxOf ws.vertices x + 1)
          < (if y = -1 then 0 else idxOf ws.vertices y + 1) := by
      intro x y h
      induction h with
      | single h1 => exact hrank _ _ h1
      | tail _ h2 ih => exact lt_trans ih (hrank _ _ h2)
    exact absurd (hmono v v hcycle) (lt_irrefl _)

/-! ### Well-formed stores

`token_attribution` indexes `token_names[i]` by matrix indices, reads
`store["0_attr_shape"]`, and takes `np.max` of each layer, so a store it can
process without an exception has at least one record, all records reachable
(`length ≤` the stored record count), a positive layer count, and per record:
nonempty token names, the common layer count, at least one head per layer, and
square head matrices of size `tokens + 1`. -/

def RecordWF (L : Nat) (r : AttrRecord) : Prop :=
  r.token_names ≠ [] ∧ r.attrs.length = L ∧
  ∀ layer ∈ r.attrs, layer ≠ [] ∧
    ∀ hd ∈ layer, hd.length = r.token_names.length + 1 ∧
      ∀ row ∈ hd, row.length = r.token_names.length + 1

def StoreWF (s : AttrStore) : Prop :=
  1 ≤ storeLength s ∧ storeLength s ≤ s.records.length ∧ 1 ≤ numLayers0 s ∧
  ∀ r ∈ procRecords s, RecordWF (numLayers0 s) r

instance (L : Nat) (r : AttrRecord) : Decidable (RecordWF L r) := by
  unfold RecordWF
  infer_instance

instance (s : AttrStore) : Decidable (StoreWF s) := by
  unfold StoreWF
  infer_instance

def MatShape (rows cols : Nat) (m : List (List ℚ)) : Prop :=
  m.length = rows ∧ ∀ r ∈ m, r.length = cols

theorem mem_zipWith {α β γ : Type} (f : α → β → γ) :
    ∀ (a : List α) (b : List β) (c : γ), c ∈ List.zipWith f a b →
      ∃ x ∈ a, ∃ y ∈ b, c = f x y := by
  intro a
  induction a with
  | nil => intro b c hc; cases hc
  | cons x xs ih =>
    intro b c hc
    cases b with
    | nil => cases hc
    | cons y ys =>
      rw [List.zipWith_cons_cons] at hc
      rcases List.mem_cons.mp hc with rfl | htail
      · exact ⟨x, List.mem_cons_self x xs, y, List.mem_cons_self y ys, rfl⟩
      · obtain ⟨x', hx', y', hy', hc'⟩ := ih ys c htail
        exact ⟨x', List.mem_cons_of_mem x hx', y', List.mem_cons_of_mem y hy', hc'⟩

theorem matAdd_shape (d c : Nat) (a b : List (List ℚ))
    (ha : MatShape d c a) (hb : MatShape d c b) : MatShape d c (matAdd a b) := by
  constructor
  · rw [matAdd, List.length_zipWith, ha.1, hb.1, Nat.min_self]
  · intro r hr
    obtain ⟨x, hx, y, hy, rfl⟩ := mem_zipWith _ a b r hr
    rw [List.length_zipWith, ha.2 x hx, hb.2 y hy, Nat.min_self]

theorem sumMats_shape (d c : Nat) (ms : List (List (List ℚ))) (hne : ms ≠ [])
    (hall : ∀ m ∈ ms, MatShape d c m) : MatShape d c (sumMats ms) := by
  cases ms with
  | nil => exact absurd rfl hne
  | cons m rest =>
    rw [sumMats]
    have hfold : ∀ (l : List (List (List ℚ))) (acc : List (List ℚ)), MatShape d c acc →
        (∀ x ∈ l, MatShape d c x) → MatShape d c (l.foldl matAdd acc) := by
      intro l
      induction l with
      | nil => intro acc hacc _; exact hacc
      | cons z t ihl =>
        intro acc hacc hl
        exact ihl (matAdd acc z) (matAdd_shape d c acc z hacc (hl z (List.mem_cons_self z t)))
          fun x hx => hl x (List.mem_cons_of_mem z hx)
    exact hfold rest m (hall m (List.mem_cons_self m rest))
      fun x hx => hall x (List.mem_cons_of_mem m hx)

theorem stripCls_shape (n : Nat) (m : List (List ℚ)) (h : MatShape (n + 1) (n + 1) m) :
    MatShape n n (stripCls m) := by
  constructor
  · rw [stripCls, List.length_map, List.length_drop, h.1]
    omega
  · intro r hr
    rw [stripCls] at hr
    obtain ⟨row, hrow, rfl⟩ := List.mem_map.mp hr
    have hrowm : row ∈ m := List.drop_subset 1 m hrow
    rw [List.length_drop, h.2 row hrowm]
    omega

theorem attrsByLayer_shape (L : Nat) (r : AttrRecord) (hwf : RecordWF L r) :
    ∀ a ∈ attrsByLayer r, MatShape r.token_names.length r.token_names.length a := by
  intro a ha
  rw [attrsByLayer] at ha
  obtain ⟨layer, hlayer, rfl⟩ := List.mem_map.mp ha
  obtain ⟨hne, hheads⟩ := hwf.2.2 layer hlayer
  apply stripCls_shape
  exact sumMats_shape _ _ layer hne fun hd hhd =>
    ⟨(hheads hd hhd).1, (hheads hd hhd).2⟩

theorem mem_insertNames_left (names : List String) :
    ∀ (acc : List String) (nm : String), nm ∈ acc → nm ∈ insertNames acc names := by
  induction names with
  | nil => intro acc nm h; exact h
  | cons x t ih =>
    intro acc nm h
    show nm ∈ insertNames (if x ∈ acc then acc else acc ++ [x]) t
    apply ih
    by_cases hx : x ∈ acc
    · rw [if_pos hx]; exact h
    · rw [if_neg hx]; exact List.mem_append.mpr (Or.inl h)

theorem mem_insertNames_right (names : List String) :
    ∀ (acc : List String) (nm : String), nm ∈ names → nm ∈ insertNames acc names := by
  induction names with
  | nil => intro acc nm h; cases h
  | cons x t ih =>
    intro acc nm h
    show nm ∈ insertNames (if x ∈ acc then acc else acc ++ [x]) t
    rcases List.mem_cons.mp h with rfl | ht
    · apply mem_insertNames_left
      by_cases hx : nm ∈ acc
      · rw [if_pos hx]; exact hx
      · rw [if_neg hx]; exact List.mem_append.mpr (Or.inr (List.mem_singleton.mpr rfl))
    · exact ih _ nm ht

theorem mem_collect_left (recs : List AttrRecord) :
    ∀ (acc : List String) (nm : String), nm ∈ acc →
      nm ∈ recs.foldl (fun a r => insertNames a r.token_names) acc := by
  induction recs with
  | nil => intro acc nm h; exact h
  | cons r t ih =>
    intro acc nm h
    exact ih _ nm (mem_insertNames_left _ acc nm h)

theorem mem_collect_aux (recs : List AttrRecord) :
    ∀ (acc : List String) (r : AttrRecord) (nm : String), r ∈ recs → nm ∈ r.token_names →
      nm ∈ recs.foldl (fun a x => insertNames a x.token_names) acc := by
  induction recs with
  | nil => intro acc r nm hr _; cases hr
  | cons x t ih =>
    intro acc r nm hr hnm
    show nm ∈ t.foldl _ (insertNames acc x.token_names)
    rcases List.mem_cons.mp hr with rfl | ht
    · exact mem_collect_left t _ nm (mem_insertNames_right _ acc nm hnm)
    · exact ih _ r nm ht hnm

theorem mem_collectTokenNames {recs : List AttrRecord} {r : AttrRecord} {nm : String}
    (hr : r ∈ recs) (hnm : nm ∈ r.token_names) : nm ∈ collectTokenNames recs :=
  mem_collect_aux recs [] r nm hr hnm

theorem foldl_max_mem_or_eq : ∀ (l : List ℚ) (a : ℚ), l.foldl max a ∈ l ∨ l.foldl max a = a := by
  intro l
  induction l with
  | nil => intro a; exact Or.inr rfl
  | cons y t ih =>
    intro a
    rcases ih (max a y) with h | h
    · exact Or.inl (List.mem_cons_of_mem y h)
    · rcases max_choice a y with hm | hm
      · right
        show t.foldl max (max a y) = a
        rw [h, hm]
      · left
        show t.foldl max (max a y) ∈ y :: t
        rw [h, hm]
        exact List.mem_cons_self y t

theorem listMax_mem {l : List ℚ} (h : l ≠ []) : listMax l ∈ l := by
  cases l with
  | nil => exact absurd rfl h
  | cons x t =>
    rw [listMax]
    rcases foldl_max_mem_or_eq (x :: t) ((x :: t).headD 0) with hm | hm
    · exact hm
    · rw [hm]
      exact List.mem_cons_self x t

theorem computeTokenAttributions_length (abl : List (List (List ℚ))) :
    (computeTokenAttributions abl).length = ((abl.headD []).headD []).length := by
  rw [computeTokenAttributions]
  simp

theorem tokenAttrs_length_eq (L : Nat) (r : AttrRecord) (hwf : RecordWF L r) (hL : 1 ≤ L) :
    (computeTokenAttributions (attrsByLayer r)).length = r.token_names.length := by
  rw [computeTokenAttributions_length]
  have hn1 : 1 ≤ r.token_names.length := List.length_pos.mpr hwf.1
  have hablne : attrsByLayer r ≠ [] := by
    rw [attrsByLayer]
    intro h
    have hlen := congrArg List.length h
    rw [List.length_map, hwf.2.1] at hlen
    simp at hlen
    omega
  cases heq : attrsByLayer r with
  | nil => exact absurd heq hablne
  | cons a0 rest =>
    have ha0 : MatShape r.token_names.length r.token_names.length a0 :=
      attrsByLayer_shape L r hwf a0 (heq ▸ List.mem_cons_self a0 rest)
    cases ha0l : a0 with
    | nil =>
      exfalso
      rw [ha0l] at ha0
      have := ha0.1
      simp at this
      omega
    | cons r0 rows =>
      simp only [List.headD_cons]
      exact ha0.2 r0 (ha0l ▸ List.mem_cons_self r0 rows)

theorem recordLayerEdges_bound (allNames names : List String) (tauL : ℚ) (a : List (List ℚ))
    (hshape : MatShape names.length names.length a)
    (hnames : ∀ nm ∈ names, nm ∈ allNames) :
    ∀ e ∈ recordLayerEdges allNames names tauL a,
      e.1 < allNames.length ∧ e.2 < allNames.length := by
  intro e he
  rw [recordLayerEdges] at he
  obtain ⟨i, hi, hfm⟩ := List.mem_bind.mp he
  obtain ⟨j, hj, hgj⟩ := List.mem_filterMap.mp hfm
  rw [List.mem_range] at hi
  rw [List.mem_range] at hj
  by_cases hcond : ratioGtTau ((a.getD i []).getD j 0) (matMax a) tauL = true
  · rw [if_pos hcond] at hgj
    have he2 : e = (nameId allNames (names.getD i ""), nameId allNames (names.getD j "")) :=
      (Option.some.inj hgj).symm
    have hiN : i < names.length := hshape.1 ▸ hi
    have hrowlen : (a.getD i []).length = names.length := by
      have him : i < a.length := by rw [hshape.1]; exact hiN
      have hrm : a.getD i [] ∈ a := by
        rw [List.getD_eq_getElem a [] him]
        exact List.getElem_mem him
      exact hshape.2 _ hrm
    have hjN : j < names.length := hrowlen ▸ hj
    have hmi : names.getD i "" ∈ names := by
      rw [List.getD_eq_getElem names "" hiN]
      exact List.getElem_mem hiN
    have hmj : names.getD j "" ∈ names := by
      rw [List.getD_eq_getElem names "" hjN]
      exact List.getElem_mem hjN
    rw [he2]
    exact ⟨idxOf_lt_length (hnames _ hmi), idxOf_lt_length (hnames _ hmj)⟩
  · rw [if_neg hcond] at hgj
    cases hgj

theorem addEdges_bound (P : Nat × Nat → Prop) :
    ∀ (new es : List (Nat × Nat)), (∀ e ∈ es, P e) → (∀ e ∈ new, P e) →
      ∀ e ∈ addEdges es new, P e := by
  intro new
  induction new with
  | nil => intro es hes _ e he; exact hes e he
  | cons x t ih =>
    intro es hes hnew e he
    refine ih (if x ∈ es then es else es ++ [x]) ?_
      (fun y hy => hnew y (List.mem_cons_of_mem x hy)) e he
    intro y hy
    by_cases hx : x ∈ es
    · rw [if_pos hx] at hy
      exact hes y hy
    · rw [if_neg hx] at hy
      rcases List.mem_append.mp hy with h | h
      · exact hes y h
      · rw [List.mem_singleton] at h
        exact h ▸ hnew x (List.mem_cons_self x t)

theorem headD_nil_mem_or {α : Type} (l : List (List α)) :
    l.headD [] ∈ l ∨ l.headD [] = [] := by
  cases l with
  | nil => exact Or.inr rfl
  | cons x t => exact Or.inl (List.mem_cons_self x t)

theorem updateEdgesByLayer_bound (an names : List String) (P : Nat × Nat → Prop) :
    ∀ (taus : List ℚ) (abl : List (List (List ℚ))) (ebl : List (List (Nat × Nat))),
      (∀ es ∈ ebl, ∀ e ∈ es, P e) →
      (∀ tl a, (a ∈ abl ∨ a = []) → ∀ e ∈ recordLayerEdges an names tl a, P e) →
      ∀ es ∈ updateEdgesByLayer an names taus abl ebl, ∀ e ∈ es, P e := by
  intro taus
  induction taus with
  | nil => intro abl ebl hebl _ es hes; exact hebl es hes
  | cons tl taus ih =>
    intro abl ebl hebl hnew es hes
    cases ebl with
    | nil => cases hes
    | cons es0 ebl =>
      rw [updateEdgesByLayer] at hes
      rcases List.mem_cons.mp hes with rfl | htail
      · exact addEdges_bound P _ es0 (hebl es0 (List.mem_cons_self es0 ebl))
          (hnew tl (abl.headD []) (headD_nil_mem_or abl))
      · refine ih (abl.drop 1) ebl (fun x hx => hebl x (List.mem_cons_of_mem es0 hx))
          ?_ es htail
        intro tl2 a ha
        rcases ha with ha | rfl
        · exact hnew tl2 a (Or.inl (List.drop_subset 1 abl ha))
        · exact hnew tl2 [] (Or.inr rfl)

theorem edgesByLayer_fold_bound (an : List String) (taus : List ℚ) (P : Nat × Nat → Prop) :
    ∀ (recs : List AttrRecord) (ebl : List (List (Nat × Nat))),
      (∀ es ∈ ebl, ∀ e ∈ es, P e) →
      (∀ r ∈ recs, ∀ tl a, (a ∈ attrsByLayer r ∨ a = []) →
        ∀ e ∈ recordLayerEdges an r.token_names tl a, P e) →
      ∀ es ∈ recs.foldl
          (fun ebl r => updateEdgesByLayer an r.token_names taus (attrsByLayer r) ebl) ebl,
        ∀ e ∈ es, P e := by
  intro recs
  induction recs with
  | nil => intro ebl hebl _ es hes; exact hebl es hes
  | cons r t ih =>
    intro ebl hebl hrec es hes
    refine ih (updateEdgesByLayer an r.token_names taus (attrsByLayer r) ebl)
      (updateEdgesByLayer_bound an r.token_names P taus (attrsByLayer r) ebl hebl
        (hrec r (List.mem_cons_self r t)))
      (fun r' hr' => hrec r' (List.mem_cons_of_mem r hr')) es hes

theorem recordLayerEdges_nil (an names : List String) (tl : ℚ) :
    recordLayerEdges an names tl [] = [] := rfl

theorem edgesByLayer_bound (s : AttrStore) (tau : ℚ) (hwf : StoreWF s) :
    ∀ es ∈ edgesByLayer s tau, ∀ e ∈ es,
      e.1 < (collectTokenNames (procRecords s)).length ∧
      e.2 < (collectTokenNames (procRecords s)).length := by
  have hrec : ∀ r ∈ procRecords s, ∀ tl a, (a ∈ attrsByLayer r ∨ a = []) →
      ∀ e ∈ recordLayerEdges (collectTokenNames (procRecords s)) r.token_names tl a,
        e.1 < (collectTokenNames (procRecords s)).length ∧
        e.2 < (collectTokenNames (procRecords s)).length := by
    intro r hr tl a ha e he
    rcases ha with ha | rfl
    · have hwfr : RecordWF (numLayers0 s) r := hwf.2.2.2 r hr
      have hshape := attrsByLayer_shape _ r hwfr a ha
      exact recordLayerEdges_bound _ _ tl a hshape
        (fun nm hnm => mem_collectTokenNames hr hnm) e he
    · rw [recordLayerEdges_nil] at he
      cases he
  have hinit : ∀ es ∈ List.replicate (tausOf s tau).length ([] : List (Nat × Nat)),
      ∀ e ∈ es,
        e.1 < (collectTokenNames (procRecords s)).length ∧
        e.2 < (collectTokenNames (procRecords s)).length := by
    intro es hes e he
    rw [List.eq_of_mem_replicate hes] at he
    cases he
  intro es hes
  simp only [edgesByLayer] at hes
  exact edgesByLayer_fold_bound _ _ _ (procRecords s) _ hinit hrec es hes

theorem topNodeFold_aux (allNames : List String) :
    ∀ (recs : List AttrRecord) (acc : Option (Nat × ℚ)),
      (∀ r ∈ recs, r.token_names ≠ [] ∧
        (computeTokenAttributions (attrsByLayer r)).length ≤ r.token_names.length ∧
        ∀ nm ∈ r.token_names, nm ∈ allNames) →
      (acc = none ∨ ∃ t v, acc = some (t, v) ∧ t < allNames.length) →
      ∀ tp, recs.foldl (topUpdate allNames) acc = some tp → tp.1 < allNames.length := by
  intro recs
  induction recs with
  | nil =>
    intro acc _ hacc tp htp
    rw [List.foldl_nil] at htp
    rcases hacc with rfl | ⟨t, v, rfl, ht⟩
    · cases htp
    · have := Option.some.inj htp
      rw [← this]
      exact ht
  | cons r t ih =>
    intro acc hrec hacc tp htp
    rw [List.foldl_cons] at htp
    refine ih (topUpdate allNames acc r)
      (fun r' hr' => hrec r' (List.mem_cons_of_mem r hr')) ?_ tp htp
    right
    obtain ⟨hne, hlen, hsub⟩ := hrec r (List.mem_cons_self r t)
    have hidname : r.token_names.getD
        (idxOf (computeTokenAttributions (attrsByLayer r))
          (listMax (computeTokenAttributions (attrsByLayer r)))) "" ∈ r.token_names := by
      have hidx : idxOf (computeTokenAttributions (attrsByLayer r))
          (listMax (computeTokenAttributions (attrsByLayer r))) < r.token_names.length := by
        by_cases hta : computeTokenAttributions (attrsByLayer r) = []
        · rw [hta]
          exact List.length_pos.mpr hne
        · exact lt_of_lt_of_le (idxOf_lt_length (listMax_mem hta)) hlen
      rw [List.getD_eq_getElem _ "" hidx]
      exact List.getElem_mem hidx
    have hbound_new : nameId allNames
        (r.token_names.getD
          (idxOf (computeTokenAttributions (attrsByLayer r))
            (listMax (computeTokenAttributions (attrsByLayer r)))) "") < allNames.length :=
      idxOf_lt_length (hsub _ hidname)
    rcases hacc with rfl | ⟨t0, v0, rfl, ht0⟩
    · simp only [topUpdate]
      exact ⟨_, _, rfl, hbound_new⟩
    · simp only [topUpdate]
      by_cases hcmp : listMax (computeTokenAttributions (attrsByLayer r)) > v0
      · rw [if_pos hcmp]
        exact ⟨_, _, rfl, hbound_new⟩
      · rw [if_neg hcmp]
        exact ⟨t0, v0, rfl, ht0⟩

/-! ### Theorem for claim C2 (structure of the returned vertex/edge sets) -/

/-- C2 (amended): for every store `token_attribution` processes, in the
returned sets every non-root vertex has at least one incoming edge — exactly
one from the class token, which is wired as a parent of *every* walk vertex,
plus at most one from another token — and the edge set is acyclic with every
vertex reachable from the class-token root.  It is not in general a tree:
a vertex connected during the walk has two incoming edges. -/
theorem token_attribution_tree_structure (s : AttrStore) (tau : ℚ) (hwf : StoreWF s)
    (res : AttributionResult) (hres : token_attribution s tau = some res) :
    res.vertices.Nodup ∧ res.edges.Nodup ∧ (-1 : ℤ) ∈ res.vertices ∧
    (∀ v ∈ res.vertices, v ≠ -1 → ((-1 : ℤ), v) ∈ res.edges) ∧
    (∀ e ∈ res.edges, e.1 ∈ res.vertices ∧ e.2 ∈ res.vertices ∧ e.2 ≠ -1) ∧
    (∀ v : ℤ, (res.edges.filter fun e => decide (e.2 = v) && decide (e.1 ≠ -1)).length ≤ 1) ∧
    (∀ v : ℤ, ¬ Relation.TransGen (fun x y => (x, y) ∈ res.edges) v v) := by
  have hrecs_wf : ∀ r ∈ procRecords s, r.token_names ≠ [] ∧
      (computeTokenAttributions (attrsByLayer r)).length ≤ r.token_names.length ∧
      ∀ nm ∈ r.token_names, nm ∈ collectTokenNames (procRecords s) := by
    intro r hr
    have hwfr := hwf.2.2.2 r hr
    refine ⟨hwfr.1, ?_, fun nm hnm => mem_collectTokenNames hr hnm⟩
    rw [tokenAttrs_length_eq (numLayers0 s) r hwfr hwf.2.2.1]
  simp only [token_attribution] at hres
  obtain ⟨tp, htp, hf⟩ := Option.map_eq_some'.mp hres
  have htopN : tp.1 < (collectTokenNames (procRecords s)).length :=
    topNodeFold_aux _ (procRecords s) none hrecs_wf (Or.inl rfl) tp htp
  have hinv : WalkInv (collectTokenNames (procRecords s)).length
      (walkOverLayers (edgesByLayer s tau) (initWalkState tp.1)) := by
    rw [walkOverLayers]
    exact walkInv_walkLoop _ _ (edgesByLayer_bound s tau hwf) _ _
      (walkInv_init _ _ htopN)
  have hstruct := inject_structure (collectTokenNames (procRecords s)).length _ hinv
  subst hf
  exact hstruct

/-- The store of the C2 counterexample: one record, two tokens `a`, `b`, one
head, two layers; layer 0 attributes `a → b` strongly, the final layer is all
zero. -/
def twoIncomingStore : AttrStore :=
  { records := [
      { token_names := ["a", "b"],
        attrs := [
          [[[0, 0, 0], [0, 0, 10], [0, 0, 0]]],
          [[[0, 0, 0], [0, 0, 0], [0, 0, 0]]]] }],
    lengthKey := none }

def twoIncomingResult : AttributionResult :=
  { token_id_map := [(0, "a"), (1, "b"), (-1, "[CLS]")],
    token_attrs := [10, 0],
    edges := [(0, 1), (-1, 1), (-1, 0)],
    vertices := [0, 1, -1] }

/-- C2 counterexample: on `twoIncomingStore` the non-root vertex `1` receives
two incoming edges — `(0, 1)` from the walk and `(-1, 1)` from the class-token
injection — so the returned edge set is not a tree in which every non-root
vertex has exactly one incoming edge (3 edges on 3 vertices). -/
theorem token_attribution_not_tree_counterexample :
    token_attribution twoIncomingStore (2/5) = some twoIncomingResult ∧
    (1 : ℤ) ∈ twoIncomingResult.vertices ∧ (1 : ℤ) ≠ -1 ∧
    (twoIncomingResult.edges.filter fun e => decide (e.2 = (1 : ℤ))).length = 2 := by
  refine ⟨by decide, by decide, by decide, by decide⟩

/-- Witness for `token_attribution_tree_structure` on `twoIncomingStore`. -/
theorem token_attribution_tree_structure_witness :
    (StoreWF twoIncomingStore ∧
      token_attribution twoIncomingStore (2/5) = some twoIncomingResult) ∧
    (-1 : ℤ) ∈ twoIncomingResult.vertices := by
  have hwf : StoreWF twoIncomingStore := by decide
  have hres : token_attribution twoIncomingStore (2/5) = some twoIncomingResult := by decide
  exact ⟨⟨hwf, hres⟩, (token_attribution_tree_structure twoIncomingStore (2/5) hwf
    twoIncomingResult hres).2.2.1⟩

/-! ### Theorem for claim C5 (layer visiting order of the walk) -/

theorem walkLoop_eq_foldl (ebl : List (List (Nat × Nat))) :
    ∀ (k : Nat) (ws : WalkState), k ≤ ebl.length →
      walkLoop ebl k ws = ((ebl.take k).reverse).foldl processLayer ws := by
  intro k
  induction k with
  | zero => intro ws _; rfl
  | succ k ih =>
    intro ws hk
    have hk' : k < ebl.length := by omega
    rw [walkLoop, ih (processLayer ws (ebl.getD k [])) (by omega)]
    have htake : ebl.take (k + 1) = ebl.take k ++ [ebl.getD k []] := by
      rw [List.take_succ, List.getElem?_eq_getElem hk', List.getD_eq_getElem ebl [] hk']
      rfl
    rw [htake, List.reverse_append, List.reverse_singleton, List.singleton_append,
      List.foldl_cons]

theorem dropLast_append_singleton {α : Type} (l : List α) (a : α) :
    (l ++ [a]).dropLast = l := by
  rw [List.dropLast_eq_take]
  simp

/-- C5 (amended): the tree walk (`for l in range(len(taus) - 2, -1, -1)`)
visits the candidate edge set of every layer *except the final one* exactly
once, from the deepest remaining layer down to layer 0 — a fold over
`dropLast.reverse` — and the final (forced `tau = 0`) layer's candidates are
never examined: whatever that layer holds, the walk's result is unchanged. -/
theorem walk_layer_order (ebl : List (List (Nat × Nat))) (ws : WalkState) :
    walkOverLayers ebl ws = (ebl.dropLast.reverse).foldl processLayer ws ∧
    ∀ last, walkOverLayers (ebl.dropLast ++ [last]) ws
      = (ebl.dropLast.reverse).foldl processLayer ws := by
  have hmain : ∀ l : List (List (Nat × Nat)),
      walkOverLayers l ws = (l.dropLast.reverse).foldl processLayer ws := by
    intro l
    rw [walkOverLayers, walkLoop_eq_foldl l (l.length - 1) ws (by omega),
      List.dropLast_eq_take]
  refine ⟨hmain ebl, fun last => ?_⟩
  rw [hmain (ebl.dropLast ++ [last]), dropLast_append_singleton]

/-- The store of the C5 counterexample: the only candidate edge lives in the
final (`tau = 0`) layer. -/
def finalLayerStore : AttrStore :=
  { records := [
      { token_names := ["a", "b"],
        attrs := [
          [[[0, 0, 0], [0, 0, 0], [0, 0, 0]]],
          [[[0, 0, 0], [0, 0, 5], [0, 0, 0]]]] }],
    lengthKey := none }

def finalLayerResult : AttributionResult :=
  { token_id_map := [(0, "a"), (1, "b"), (-1, "[CLS]")],
    token_attrs := [5, 0],
    edges := [(-1, 0)],
    vertices := [0, -1] }

/-- C5 counterexample: on `finalLayerStore` the final layer's candidate edge
set is `[(0, 1)]` (its threshold is the forced `tau = 0`), yet the walk never
examines it: token `1` is absent from the returned vertices and the edge
`(0, 1)` from the returned edges, so connectivity is not established through
the final layer, contradicting the claim that every layer — including the
final one — is visited. -/
theorem token_attribution_skips_final_layer :
    (edgesByLayer finalLayerStore (2/5)).getD 1 [] = [(0, 1)] ∧
    token_attribution finalLayerStore (2/5) = some finalLayerResult ∧
    ((0 : ℤ), (1 : ℤ)) ∉ finalLayerResult.edges ∧
    (1 : ℤ) ∉ finalLayerResult.vertices := by
  refine ⟨by decide, by decide, by decide, by decide⟩

end Spec2Proof
